import Mathlib

/-!
Verification development for `examples/find_roots.c`: a chunked pipeline that
generates x-samples, computes a cubic polynomial y chunk-by-chunk, and scans
the y-chunks for sign changes (roots), carrying state across chunk boundaries.

Doubles are modelled as exact rationals (ℚ); the external blosc decompression
calls are modelled as oracles returning a status code (`dsize`, negative on
failure, as in the C API) together with the decoded chunk contents.
-/

/-- NCHUNKS constant from find_roots.c (line 46). -/
def NCHUNKS : ℕ := 500

/-- CHUNKSIZE constant from find_roots.c (line 47). -/
def CHUNKSIZE : ℕ := 200000

/-- The x-increment `incx = 10. / (NCHUNKS * CHUNKSIZE)` computed inside
`fill_buffer` (line 87). -/
def incx : ℚ := 10 / ((NCHUNKS : ℚ) * (CHUNKSIZE : ℚ))

/-- The value `x[i] = incx * (nchunk * CHUNKSIZE + i)` written by
`fill_buffer` (line 90). -/
def fill_buffer_elt (nchunk i : ℕ) : ℚ :=
  incx * ((nchunk : ℚ) * (CHUNKSIZE : ℚ) + (i : ℚ))

/-- The buffer produced by `fill_buffer(x, nchunk)` (lines 86-92): a chunk of
CHUNKSIZE samples, element `i` being `incx * (nchunk * CHUNKSIZE + i)`. -/
def fill_buffer (nchunk : ℕ) : List ℚ :=
  (List.range CHUNKSIZE).map (fill_buffer_elt nchunk)

/-- The transform loop of `process_data` (lines 94-101):
`y[i] = (x[i] - 1.35) * (x[i] - 4.45) * (x[i] - 8.5)` element-wise. -/
def process_data (x : List ℚ) : List ℚ :=
  x.map (fun xi => (xi - 1.35) * (xi - 4.45) * (xi - 8.5))

/-- The sign expression `(yi > 0) - (yi < 0)` used in `find_root` (line 110),
with C booleans as 0/1 integers. -/
def csign (v : ℚ) : ℤ := (if 0 < v then 1 else 0) - (if v < 0 then 1 else 0)

/-- The loop of `find_root` (lines 108-117): `i` is the loop counter, `pv` the
running previous value, `last_root_idx` the last reported index (sentinel -1).
A report happens when the sign of `yi` differs from the sign of `pv` and
`last_root_idx != i - 1`; reporting records index `i` (the C code prints
`x[i]`) and sets `last_root_idx = i`; `pv` becomes `yi` in every iteration. -/
def find_root_aux (i : ℕ) (pv : ℚ) (last_root_idx : ℤ) : List ℚ → List ℕ
  | [] => []
  | yi :: rest =>
    if csign yi ≠ csign pv then
      if last_root_idx ≠ (i : ℤ) - 1 then
        i :: find_root_aux (i + 1) yi (i : ℤ) rest
      else
        find_root_aux (i + 1) yi last_root_idx rest
    else
      find_root_aux (i + 1) yi last_root_idx rest

/-- `find_root(x, y, prev_value)` (lines 103-118): the indices at which a root
is reported, starting from `pv = prev_value` and `last_root_idx = -1`. -/
def find_root (y : List ℚ) (prev_value : ℚ) : List ℕ :=
  find_root_aux 0 prev_value (-1) y

/-- The x-values printed by `find_root` (line 112): `x[i]` for each reported
index `i`. -/
def find_root_xs (x y : List ℚ) (prev_value : ℚ) : List ℚ :=
  (find_root y prev_value).map (fun i => x.getD i 0)

/-- The global x-sample at index `g` of the logical array, as laid down by the
generation loop of `compute_vectors` (lines 150-154): chunk `g / CHUNKSIZE`,
element `g % CHUNKSIZE` of `fill_buffer`. -/
def xglobal (g : ℕ) : ℚ :=
  (fill_buffer (g / CHUNKSIZE)).getD (g % CHUNKSIZE) 0

/-- Restatement of the `find_root` loop in which the integer tracker
`last_root_idx` is replaced by the boolean `b` = "`last_root_idx` currently
equals `i - 1`" (true initially, since the sentinel -1 equals 0 - 1, and true
right after a report). Used only as a proof device; `find_root_aux` is proved
equal to it. -/
def frchar : List ℚ → ℕ → ℚ → Bool → List ℕ
  | [], _, _, _ => []
  | yi :: rest, j, pv, b =>
    if csign yi ≠ csign pv ∧ b = false then
      j :: frchar rest (j + 1) yi true
    else
      frchar rest (j + 1) yi false

/-- Declarative description of which indices the `find_root` loop reports:
index 0 never reports (the sentinel suppresses it), and index j+1 reports
exactly when it is in range, the sign of `y[j+1]` differs from the sign of
`y[j]`, and index j did not report. -/
def reportAt (y : List ℚ) : ℕ → Bool
  | 0 => false
  | j + 1 =>
    decide (j + 1 < y.length) &&
    decide (csign (y.getD (j + 1) 0) ≠ csign (y.getD j 0)) &&
    !(reportAt y j)

/-- Result of the transform loop of `compute_vectors` (lines 165-173):
the chunks processed before any failure, the final contents of `buffer_y`,
and the return value (0 on success, the negative `dsize` on failure). -/
structure TransformResult where
  processed : List ℕ
  buffer_y : List ℚ
  ret : ℤ

/-- The transform loop of `compute_vectors` (lines 165-173) over a list of
chunk indices: decompression of x-chunk `n` is abstracted by the oracle
`decX n = (dsize, buffer)`; a negative `dsize` aborts with that code,
otherwise `buffer_y` is overwritten with `process_data` of the decoded
chunk and the loop continues. -/
def transform_phase_aux (decX : ℕ → ℤ × List ℚ) : List ℚ → List ℕ → TransformResult
  | buf, [] => ⟨[], buf, 0⟩
  | buf, n :: rest =>
    if (decX n).1 < 0 then ⟨[], buf, (decX n).1⟩
    else
      let r := transform_phase_aux decX (process_data (decX n).2) rest
      ⟨n :: r.processed, r.buffer_y, r.ret⟩

/-- The whole transform loop: chunk indices 0..NCHUNKS-1, starting from the
zero-initialised static `buffer_y`. -/
def transform_phase (decX : ℕ → ℤ × List ℚ) : TransformResult :=
  transform_phase_aux decX (List.replicate CHUNKSIZE 0) (List.range NCHUNKS)

/-- Result of the scan loop of `compute_vectors` (lines 187-200): processed
chunks, the reported roots as (chunk, index-in-chunk) pairs, and the return
value. -/
structure ScanResult where
  processed : List ℕ
  reports : List (ℕ × ℕ)
  ret : ℤ

/-- The scan loop of `compute_vectors` (lines 187-200) over a list of chunk
indices: per chunk, first the y-chunk then the x-chunk is decompressed (each
abstracted by an oracle returning `(dsize, buffer)`, negative `dsize`
aborting with that code), then `find_root` runs with the carried
`prev_value`, which is then set to `buffer_y[CHUNKSIZE - 1]`. -/
def scan_phase_aux (decY decX : ℕ → ℤ × List ℚ) : ℚ → List ℕ → ScanResult
  | _, [] => ⟨[], [], 0⟩
  | pv, n :: rest =>
    if (decY n).1 < 0 then ⟨[], [], (decY n).1⟩
    else if (decX n).1 < 0 then ⟨[], [], (decX n).1⟩
    else
      let r := scan_phase_aux decY decX ((decY n).2.getD (CHUNKSIZE - 1) 0) rest
      ⟨n :: r.processed,
        (find_root (decY n).2 pv).map (fun i => (n, i)) ++ r.reports, r.ret⟩

/-- The whole scan loop: chunk indices 0..NCHUNKS-1 with an initial
`prev_value`. -/
def scan_phase (decY decX : ℕ → ℤ × List ℚ) (prev_value : ℚ) : ScanResult :=
  scan_phase_aux decY decX prev_value (List.range NCHUNKS)

/-- Ideal decompression oracle for the x super-chunk: chunk `n` decodes
successfully (dsize = CHUNKSIZE * sizeof(double)) to exactly the data that
was appended, namely `fill_buffer n`. -/
def decX_ideal (n : ℕ) : ℤ × List ℚ :=
  ((CHUNKSIZE : ℤ) * 8, fill_buffer n)

/-- The value assigned to `prev_value` just before the scan loop
(line 186: `prev_value = buffer_y[0]`), where `buffer_y` still holds whatever
the transform loop left in it. -/
def scan_initial_prev : ℚ :=
  (transform_phase decX_ideal).buffer_y.getD 0 0

/-- Decompression oracle for a y super-chunk holding a signal whose only sign
change falls exactly on the boundary between chunk 249 and chunk 250: chunks
0..249 are constant -1, chunks 250..499 are constant +1. -/
def decY_c1 (n : ℕ) : ℤ × List ℚ :=
  ((CHUNKSIZE : ℤ) * 8, List.replicate CHUNKSIZE (if n < 250 then (-1 : ℚ) else 1))

/-- Decompression oracle that fails immediately on every chunk with error
code -5. -/
def decBad (_ : ℕ) : ℤ × List ℚ := (-5, [])

/- ------------------------------------------------------------------ -/
/- Helper lemmas -/

theorem process_data_getD (x : List ℚ) (i : ℕ) (hi : i < x.length) :
    (process_data x).getD i 0 =
      (x.getD i 0 - 1.35) * (x.getD i 0 - 4.45) * (x.getD i 0 - 8.5) := by
  rw [List.getD_eq_getElem _ _ (by simpa [process_data] using hi),
    List.getD_eq_getElem _ _ hi]
  simp [process_data]

theorem fill_buffer_getD (nchunk i : ℕ) (hi : i < CHUNKSIZE) :
    (fill_buffer nchunk).getD i 0 = fill_buffer_elt nchunk i := by
  simp [fill_buffer, List.getD_eq_getElem?_getD, List.getElem?_range, hi]

theorem xglobal_eq (g : ℕ) : xglobal g = incx * (g : ℚ) := by
  rw [xglobal, fill_buffer_getD _ _ (Nat.mod_lt _ (by norm_num [CHUNKSIZE])),
    fill_buffer_elt]
  congr 1
  have h := congrArg (Nat.cast : ℕ → ℚ) (Nat.div_add_mod g CHUNKSIZE)
  push_cast at h
  linarith [h]

theorem csign_of_neg {v : ℚ} (h : v < 0) : csign v = -1 := by
  rw [csign, if_neg (by linarith), if_pos h]
  norm_num

theorem csign_of_pos {v : ℚ} (h : 0 < v) : csign v = 1 := by
  rw [csign, if_pos h, if_neg (by linarith)]
  norm_num

theorem csign_zero : csign 0 = 0 := by norm_num [csign]

/- ------------------------------------------------------------------ -/
/- Claim theorems -/

/-- Claim C4: the sign expression of `find_root` maps every sample into the
three classes {-1, 0, +1}, and a zero sample is in a class distinct from every
nonzero sample, so a zero adjacent to a nonzero neighbour always satisfies the
sign-difference test. -/
theorem csign_three_classes : ∀ v : ℚ,
    (csign v = -1 ∨ csign v = 0 ∨ csign v = 1) ∧ (v ≠ 0 → csign v ≠ csign 0) := by
  intro v
  rcases lt_trichotomy v 0 with h | h | h
  · rw [csign_of_neg h, csign_zero]
    exact ⟨Or.inl rfl, fun _ => by norm_num⟩
  · subst h
    rw [csign_zero]
    exact ⟨Or.inr (Or.inl rfl), fun hv => absurd rfl hv⟩
  · rw [csign_of_pos h, csign_zero]
    exact ⟨Or.inr (Or.inr rfl), fun _ => by norm_num⟩

/-- Witness for C4 at the concrete sample v = 5. -/
theorem csign_three_classes_witness :
    (csign 5 = -1 ∨ csign 5 = 0 ∨ csign 5 = 1) ∧ csign 5 ≠ csign 0 :=
  ⟨(csign_three_classes 5).1, (csign_three_classes 5).2 (by norm_num)⟩

/-- Claim C5: for every input chunk of CHUNKSIZE elements, `process_data`
produces `y[i] = (x[i] - 1.35) * (x[i] - 4.45) * (x[i] - 8.5)` at every index,
and the value at index `i` depends on no element other than `x[i]`. -/
theorem process_data_elementwise : ∀ x : List ℚ, x.length = CHUNKSIZE →
    (∀ i, i < CHUNKSIZE →
      (process_data x).getD i 0 =
        (x.getD i 0 - 1.35) * (x.getD i 0 - 4.45) * (x.getD i 0 - 8.5)) ∧
    (∀ x' : List ℚ, x'.length = CHUNKSIZE → ∀ i, i < CHUNKSIZE →
      x.getD i 0 = x'.getD i 0 →
      (process_data x).getD i 0 = (process_data x').getD i 0) := by
  intro x hx
  constructor
  · intro i hi
    exact process_data_getD x i (by omega)
  · intro x' hx' i hi hagree
    rw [process_data_getD x i (by omega), process_data_getD x' i (by omega),
      hagree]

/-- Witness for C5 at the concrete chunk `fill_buffer 0` and index 0. -/
theorem process_data_elementwise_witness :
    (fill_buffer 0).length = CHUNKSIZE ∧ 0 < CHUNKSIZE ∧
    (process_data (fill_buffer 0)).getD 0 0 =
      ((fill_buffer 0).getD 0 0 - 1.35) * ((fill_buffer 0).getD 0 0 - 4.45) *
        ((fill_buffer 0).getD 0 0 - 8.5) :=
  ⟨by simp [fill_buffer], by norm_num [CHUNKSIZE],
    (process_data_elementwise (fill_buffer 0) (by simp [fill_buffer])).1 0
      (by norm_num [CHUNKSIZE])⟩

/-- Claim C6: for every chunk index below NCHUNKS and element index below
CHUNKSIZE, the generator writes
`x[i] = (10 / (NCHUNKS * CHUNKSIZE)) * (nchunk * CHUNKSIZE + i)`: a fixed
scale times the global sample position. -/
theorem fill_buffer_formula : ∀ nchunk i : ℕ, nchunk < NCHUNKS → i < CHUNKSIZE →
    (fill_buffer nchunk).getD i 0 =
      (10 / ((NCHUNKS : ℚ) * (CHUNKSIZE : ℚ))) *
        ((nchunk : ℚ) * (CHUNKSIZE : ℚ) + (i : ℚ)) := by
  intro nchunk i _ hi
  rw [fill_buffer_getD nchunk i hi, fill_buffer_elt, incx]

/-- Witness for C6 at chunk 0, element 0. -/
theorem fill_buffer_formula_witness :
    0 < NCHUNKS ∧ 0 < CHUNKSIZE ∧
    (fill_buffer 0).getD 0 0 =
      (10 / ((NCHUNKS : ℚ) * (CHUNKSIZE : ℚ))) *
        (((0 : ℕ) : ℚ) * (CHUNKSIZE : ℚ) + ((0 : ℕ) : ℚ)) :=
  ⟨by norm_num [NCHUNKS], by norm_num [CHUNKSIZE],
    fill_buffer_formula 0 0 (by norm_num [NCHUNKS]) (by norm_num [CHUNKSIZE])⟩

/-- Claim C10: the generated x-samples are strictly increasing in the global
index and lie in [0, 10), with the very first sample equal to 0. -/
theorem fill_buffer_strict_mono_range :
    (∀ g g' : ℕ, g < g' → g' < NCHUNKS * CHUNKSIZE →
      xglobal g < xglobal g' ∧ 0 ≤ xglobal g ∧ xglobal g' < 10) ∧
    xglobal 0 = 0 := by
  have hincx : incx = 1 / 10000000 := by
    norm_num [incx, NCHUNKS, CHUNKSIZE]
  constructor
  · intro g g' hlt hub
    rw [xglobal_eq, xglobal_eq, hincx]
    have hcast : (g : ℚ) < (g' : ℚ) := by exact_mod_cast hlt
    have hub' : (g' : ℚ) < 100000000 := by
      exact_mod_cast (show g' < 100000000 by
        simpa [NCHUNKS, CHUNKSIZE] using hub)
    refine ⟨by linarith, by positivity, by linarith⟩
  · rw [xglobal_eq]
    simp

/-- Witness for C10 at global indices 0 and 1. -/
theorem fill_buffer_strict_mono_range_witness :
    (0 : ℕ) < 1 ∧ 1 < NCHUNKS * CHUNKSIZE ∧
    (xglobal 0 < xglobal 1 ∧ 0 ≤ xglobal 0 ∧ xglobal 1 < 10) ∧ xglobal 0 = 0 :=
  ⟨by norm_num, by norm_num [NCHUNKS, CHUNKSIZE],
    fill_buffer_strict_mono_range.1 0 1 (by norm_num)
      (by norm_num [NCHUNKS, CHUNKSIZE]),
    fill_buffer_strict_mono_range.2⟩

theorem find_root_aux_eq_frchar (rest : List ℚ) : ∀ (j : ℕ) (pv : ℚ) (lri : ℤ),
    lri ≤ (j : ℤ) - 1 →
    find_root_aux j pv lri rest = frchar rest j pv (decide (lri = (j : ℤ) - 1)) := by
  induction rest with
  | nil => intro j pv lri _; rfl
  | cons yi rest ih =>
    intro j pv lri h
    simp only [find_root_aux, frchar]
    by_cases hd : csign yi ≠ csign pv
    · by_cases hl : lri = (j : ℤ) - 1
      · rw [if_pos hd, if_neg (not_not_intro hl),
          if_neg (by simp [decide_eq_true hl]),
          ih (j + 1) yi lri (by push_cast; omega),
          decide_eq_false (show ¬lri = ((j + 1 : ℕ) : ℤ) - 1 by push_cast; omega)]
      · rw [if_pos hd, if_pos hl, if_pos ⟨hd, decide_eq_false hl⟩,
          ih (j + 1) yi (j : ℤ) (by push_cast; omega),
          decide_eq_true (show (j : ℤ) = ((j + 1 : ℕ) : ℤ) - 1 by push_cast; omega)]
    · rw [if_neg hd, if_neg (by simp [hd]),
        ih (j + 1) yi lri (by push_cast; omega),
        decide_eq_false (show ¬lri = ((j + 1 : ℕ) : ℤ) - 1 by push_cast; omega)]

theorem frchar_eq_filter (y : List ℚ) : ∀ (rest : List ℚ) (j : ℕ) (pv : ℚ) (b : Bool),
    y.drop j = rest →
    (1 ≤ j → pv = y.getD (j - 1) 0) →
    b = (if j = 0 then true else reportAt y (j - 1)) →
    frchar rest j pv b = (List.range' j rest.length).filter (fun m => reportAt y m) := by
  intro rest
  induction rest with
  | nil => intro j pv b _ _ _; rfl
  | cons yi rest ih =>
    intro j pv b hdrop hpv hb
    have hj : j < y.length := by
      have hne : y.drop j ≠ [] := by rw [hdrop]; simp
      rw [← List.length_pos] at hne
      simp only [List.length_drop] at hne
      omega
    have hyj : y.getD j 0 = yi := by
      have h1 : (y.drop j)[0]? = some yi := by rw [hdrop]; simp
      rw [List.getElem?_drop] at h1
      simp only [Nat.add_zero] at h1
      simp [List.getD_eq_getElem?_getD, h1]
    have hdrop' : y.drop (j + 1) = rest := by
      rw [← List.drop_drop, hdrop]
      rfl
    simp only [List.length_cons]
    rw [List.range'_succ, List.filter_cons]
    cases j with
    | zero =>
      have hb' : b = true := by simpa using hb
      simp only [frchar]
      rw [if_neg (by simp [hb'])]
      have hr0 : reportAt y 0 = false := rfl
      simp only [hr0, Bool.false_eq_true, if_false]
      exact ih 1 yi false hdrop' (fun _ => hyj.symm) (by simp [hr0])
    | succ m =>
      have hbm : b = reportAt y m := by simpa using hb
      have hpvm : pv = y.getD m 0 := by simpa using hpv (by omega)
      have hrep : reportAt y (m + 1) = (decide (csign yi ≠ csign pv) && !b) := by
        simp only [reportAt]
        rw [hyj, ← hpvm, ← hbm, decide_eq_true hj]
        simp
      by_cases hc : csign yi ≠ csign pv ∧ b = false
      · have hrt : reportAt y (m + 1) = true := by
          rw [hrep, decide_eq_true hc.1, hc.2]
          rfl
        simp only [frchar]
        rw [if_pos hc, hrt, if_pos rfl]
        congr 1
        exact ih (m + 2) yi true hdrop' (fun _ => by simpa using hyj.symm)
          (by simp [hrt])
      · have hrf : reportAt y (m + 1) = false := by
          rw [hrep]
          rcases not_and_or.mp hc with hnd | hnb
          · rw [decide_eq_false hnd]
            rfl
          · have : b = true := by
              cases b
              · exact absurd rfl hnb
              · rfl
            rw [this]
            simp
        simp only [frchar]
        rw [if_neg hc, hrf]
        simp only [Bool.false_eq_true, if_false]
        exact ih (m + 2) yi false hdrop' (fun _ => by simpa using hyj.symm)
          (by simp [hrf])

theorem find_root_eq_filter (y : List ℚ) (pv : ℚ) :
    find_root y pv = (List.range y.length).filter (fun m => reportAt y m) := by
  rw [find_root, find_root_aux_eq_frchar y 0 pv (-1) (by norm_num),
    decide_eq_true (show (-1 : ℤ) = ((0 : ℕ) : ℤ) - 1 by norm_num),
    List.range_eq_range']
  exact frchar_eq_filter y y 0 pv true (List.drop_zero y)
    (fun h => absurd h (by omega)) (by simp)

theorem mem_find_root_iff (y : List ℚ) (pv : ℚ) (m : ℕ) :
    m ∈ find_root y pv ↔ m < y.length ∧ reportAt y m = true := by
  rw [find_root_eq_filter, List.mem_filter, List.mem_range]

/-- Counterexample to claim C3 as stated: at y = [1,1,1,1] with prev_value -1,
the sign of y[0] differs from the sign of the previous value and no preceding
sample triggered a report, yet `find_root` reports nothing at index 0 (so
"reported exactly when the sign differs and the preceding sample did not
trigger" is false at index 0). -/
theorem find_root_sign_change_at_zero_not_reported :
    ¬(0 ∈ find_root [1, 1, 1, 1] (-1) ↔
      csign (([1, 1, 1, 1] : List ℚ).getD 0 0) ≠ csign (-1)) := by
  decide

/-- Claim C3 (amended): within one `find_root` call a root is reported at
index m exactly when m ≥ 1, m is in range, the sign of y[m] differs from the
sign of y[m-1], and index m-1 did not itself trigger a report; index 0 never
reports (the tracker sentinel -1 equals i - 1 there). In particular, for
x = [0,1,2,3], y = [-1,-1,1,1] and prev_value seeded with y's first sample,
exactly one root is reported, at x = 2, and no report occurs at the next
sample. -/
theorem find_root_report_characterization :
    (∀ (y : List ℚ) (pv : ℚ) (m : ℕ),
      m ∈ find_root y pv ↔
        1 ≤ m ∧ m < y.length ∧
          csign (y.getD m 0) ≠ csign (y.getD (m - 1) 0) ∧
          (m - 1) ∉ find_root y pv) ∧
    find_root_xs [0, 1, 2, 3] [-1, -1, 1, 1] (-1) = [2] := by
  constructor
  · intro y pv m
    rw [mem_find_root_iff, mem_find_root_iff]
    cases m with
    | zero => simp [reportAt]
    | succ k =>
      simp only [Nat.add_sub_cancel]
      constructor
      · rintro ⟨h1, h2⟩
        simp only [reportAt, Bool.and_eq_true, decide_eq_true_eq,
          Bool.not_eq_true'] at h2
        refine ⟨by omega, h1, h2.1.2, ?_⟩
        rintro ⟨_, hr⟩
        rw [h2.2] at hr
        cases hr
      · rintro ⟨_, h1, hdiff, hnot⟩
        have hk : k < y.length := by omega
        have hrf : reportAt y k = false := by
          cases hrk : reportAt y k
          · rfl
          · exact absurd ⟨hk, hrk⟩ hnot
        refine ⟨h1, ?_⟩
        simp only [reportAt, Bool.and_eq_true, decide_eq_true_eq,
          Bool.not_eq_true']
        exact ⟨⟨h1, hdiff⟩, hrf⟩
  · decide

/-- Witness for C3: the characterization instantiated at the concrete chunk
y = [-1,-1,1,1] with prev_value -1 and index 2, together with the concrete
reported x-values. -/
theorem find_root_report_characterization_witness :
    2 ∈ find_root [-1, -1, 1, 1] (-1) ∧
    find_root_xs [0, 1, 2, 3] [-1, -1, 1, 1] (-1) = [2] :=
  ⟨(find_root_report_characterization.1 [-1, -1, 1, 1] (-1) 2).mpr (by decide),
    find_root_report_characterization.2⟩

/-- Claim C8: a single `find_root` call never reports a root at index 0 of the
chunk, whatever the y buffer and prev_value: the tracker is initialized to -1,
which equals i - 1 when i = 0, so the suppression branch always blocks a
report at the first sample, even when the sign of y[0] differs from the sign
of prev_value. -/
theorem find_root_never_reports_index_zero : ∀ (y : List ℚ) (pv : ℚ),
    0 ∉ find_root y pv := by
  intro y pv h
  rw [mem_find_root_iff] at h
  simp [reportAt] at h

/-- Witness for C8 at the concrete chunk y = [1] with prev_value -1 (signs
differ at index 0, still no report). -/
theorem find_root_never_reports_index_zero_witness :
    0 ∉ find_root [1] (-1) :=
  find_root_never_reports_index_zero [1] (-1)

/-- Claim C9: within a single `find_root` call no two consecutive indices both
trigger a report: a report at index m sets the tracker to m, so the guard
blocks index m + 1. -/
theorem find_root_no_consecutive_reports : ∀ (y : List ℚ) (pv : ℚ) (m : ℕ),
    m ∈ find_root y pv → m + 1 ∉ find_root y pv := by
  intro y pv m hm hm1
  rw [mem_find_root_iff] at hm hm1
  obtain ⟨_, hr⟩ := hm
  obtain ⟨_, hr1⟩ := hm1
  simp only [reportAt, Bool.and_eq_true, Bool.not_eq_true'] at hr1
  rw [hr] at hr1
  simp at hr1

/-- Witness for C9 at the concrete chunk y = [-1, 1] with prev_value -1:
index 1 reports, index 2 does not. -/
theorem find_root_no_consecutive_reports_witness :
    1 ∈ find_root [-1, 1] (-1) ∧ 2 ∉ find_root [-1, 1] (-1) :=
  ⟨by decide, find_root_no_consecutive_reports [-1, 1] (-1) 1 (by decide)⟩

theorem find_root_aux_replicate : ∀ (n i : ℕ) (c pv : ℚ) (lri : ℤ),
    (csign pv = csign c ∨ lri = (i : ℤ) - 1) →
    find_root_aux i pv lri (List.replicate n c) = [] := by
  intro n
  induction n with
  | zero => intro i c pv lri _; rfl
  | succ n ih =>
    intro i c pv lri h
    rw [List.replicate_succ]
    simp only [find_root_aux]
    by_cases hd : csign c ≠ csign pv
    · rcases h with h | h
      · exact absurd h.symm hd
      · rw [if_pos hd, if_neg (not_not_intro h)]
        exact ih (i + 1) c c lri (Or.inl rfl)
    · rw [if_neg hd]
      exact ih (i + 1) c c lri (Or.inl rfl)

theorem find_root_replicate (n : ℕ) (c pv : ℚ) :
    find_root (List.replicate n c) pv = [] :=
  find_root_aux_replicate n 0 c pv (-1) (Or.inr (by norm_num))

theorem scan_phase_aux_reports_nil (decY decX : ℕ → ℤ × List ℚ) :
    ∀ (l : List ℕ) (pv : ℚ),
    (∀ n ∈ l, ¬(decY n).1 < 0 ∧ ¬(decX n).1 < 0 ∧
      ∀ q, find_root (decY n).2 q = []) →
    (scan_phase_aux decY decX pv l).reports = [] := by
  intro l
  induction l with
  | nil => intro pv _; rfl
  | cons n rest ih =>
    intro pv h
    obtain ⟨h1, h2, h3⟩ := h n (List.mem_cons_self n rest)
    simp only [scan_phase_aux]
    rw [if_neg h1, if_neg h2]
    simp only [h3 pv, List.map_nil, List.nil_append]
    exact ih _ (fun m hm => h m (List.mem_cons_of_mem n hm))

theorem transform_phase_aux_ok_buffer (decX : ℕ → ℤ × List ℚ) :
    ∀ (l : List ℕ) (buf : List ℚ),
    (∀ n ∈ l, ¬(decX n).1 < 0) →
    (transform_phase_aux decX buf l).buffer_y =
      l.foldl (fun _b n => process_data (decX n).2) buf := by
  intro l
  induction l with
  | nil => intro buf _; rfl
  | cons n rest ih =>
    intro buf h
    simp only [transform_phase_aux, List.foldl_cons]
    rw [if_neg (h n (List.mem_cons_self n rest))]
    exact ih _ (fun m hm => h m (List.mem_cons_of_mem n hm))

theorem scan_initial_prev_eq : scan_initial_prev =
    (process_data (fill_buffer (NCHUNKS - 1))).getD 0 0 := by
  rw [scan_initial_prev, transform_phase,
    transform_phase_aux_ok_buffer decX_ideal _ _
      (fun n _ => by norm_num [decX_ideal, CHUNKSIZE])]
  rw [show NCHUNKS = 499 + 1 from by norm_num [NCHUNKS], List.range_succ,
    List.foldl_append]
  simp [decX_ideal]

theorem getD_replicate (n m : ℕ) (c : ℚ) (h : m < n) :
    (List.replicate n c).getD m 0 = c := by
  rw [List.getD_eq_getElem _ _ (by simpa using h)]
  simp

/-- Claim C1 (code bug evaluation): with a y super-chunk whose only sign
change falls exactly on the boundary between chunk 249 (all -1) and chunk 250
(all +1), the scan loop reports no root at all: the sentinel value -1 of
`last_root_idx` equals i - 1 at i = 0, so the crossing at the first sample of
chunk 250 is suppressed instead of reported once, whatever the carried
`prev_value`. -/
theorem scan_boundary_sign_change_reports_nothing :
    (scan_phase decY_c1 decX_ideal (-1)).reports = [] ∧
    csign ((decY_c1 249).2.getD (CHUNKSIZE - 1) 0) = -1 ∧
    csign ((decY_c1 250).2.getD 0 0) = 1 := by
  refine ⟨?_, ?_, ?_⟩
  · rw [scan_phase]
    apply scan_phase_aux_reports_nil
    intro n _
    refine ⟨by norm_num [decY_c1, CHUNKSIZE], by norm_num [decX_ideal, CHUNKSIZE], ?_⟩
    intro q
    exact find_root_replicate CHUNKSIZE _ q
  · have h2 : (decY_c1 249).2 = List.replicate CHUNKSIZE (-1 : ℚ) := by
      norm_num [decY_c1]
    rw [h2, getD_replicate _ _ _ (by norm_num [CHUNKSIZE])]
    exact csign_of_neg (by norm_num)
  · have h2 : (decY_c1 250).2 = List.replicate CHUNKSIZE (1 : ℚ) := by
      norm_num [decY_c1]
    rw [h2, getD_replicate _ _ _ (by norm_num [CHUNKSIZE])]
    exact csign_of_pos (by norm_num)

/-- Counterexample to claim C2 as stated: the carried value set just before
the scan loop differs from the first sample of the first y-chunk (the
transform of x at global index 0), because `buffer_y[0]` still holds the last
chunk written by the transform loop. -/
theorem scan_initial_prev_ne_first_chunk_first_sample :
    scan_initial_prev ≠ (process_data (fill_buffer 0)).getD 0 0 := by
  rw [scan_initial_prev_eq,
    process_data_getD _ _ (by simp [fill_buffer, CHUNKSIZE]),
    process_data_getD _ _ (by simp [fill_buffer, CHUNKSIZE]),
    fill_buffer_getD _ _ (by norm_num [CHUNKSIZE]),
    fill_buffer_getD _ _ (by norm_num [CHUNKSIZE]),
    fill_buffer_elt, fill_buffer_elt]
  norm_num [NCHUNKS, CHUNKSIZE, incx]

/-- Claim C2 (amended): before the scan loop starts, `prev_value` equals the
first sample of the LAST y-chunk, i.e. the transform applied to the x-sample
at global index (NCHUNKS - 1) * CHUNKSIZE, since `buffer_y` still holds the
final chunk processed by the transform loop when line 186 reads it. -/
theorem scan_initial_prev_eq_last_chunk_first_sample :
    scan_initial_prev =
      (incx * ((((NCHUNKS - 1) * CHUNKSIZE : ℕ)) : ℚ) - 1.35) *
        (incx * ((((NCHUNKS - 1) * CHUNKSIZE : ℕ)) : ℚ) - 4.45) *
        (incx * ((((NCHUNKS - 1) * CHUNKSIZE : ℕ)) : ℚ) - 8.5) := by
  rw [scan_initial_prev_eq,
    process_data_getD _ _ (by simp [fill_buffer, CHUNKSIZE]),
    fill_buffer_getD _ _ (by norm_num [CHUNKSIZE]),
    fill_buffer_elt]
  norm_num [NCHUNKS, CHUNKSIZE, incx]

theorem range_split (n k : ℕ) (h : k < n) :
    List.range n = List.range k ++ k :: List.range' (k + 1) (n - (k + 1)) := by
  have h1 : List.range' k (n - k) = k :: List.range' (k + 1) (n - (k + 1)) := by
    rw [show n - k = (n - (k + 1)) + 1 from by omega, List.range'_succ]
  rw [List.range_eq_range' n, List.range_eq_range' k, ← h1]
  have h2 := List.range'_append 0 k (n - k) 1
  simp only [Nat.zero_add, Nat.one_mul] at h2
  rw [h2, show n - k + k = n from by omega]

theorem transform_phase_aux_err (decX : ℕ → ℤ × List ℚ) (k : ℕ)
    (l2 : List ℕ) (hk : (decX k).1 < 0) :
    ∀ (l1 : List ℕ) (buf : List ℚ), (∀ n ∈ l1, ¬(decX n).1 < 0) →
    (transform_phase_aux decX buf (l1 ++ k :: l2)).ret = (decX k).1 ∧
    (transform_phase_aux decX buf (l1 ++ k :: l2)).processed = l1 := by
  intro l1
  induction l1 with
  | nil =>
    intro buf _
    simp only [List.nil_append, transform_phase_aux]
    rw [if_pos hk]
    exact ⟨rfl, rfl⟩
  | cons n rest ih =>
    intro buf h
    simp only [List.cons_append, transform_phase_aux]
    rw [if_neg (h n (List.mem_cons_self n rest))]
    obtain ⟨h1, h2⟩ := ih (process_data (decX n).2)
      (fun m hm => h m (List.mem_cons_of_mem n hm))
    exact ⟨h1, congrArg (List.cons n) h2⟩

theorem scan_phase_aux_err (decY decX : ℕ → ℤ × List ℚ) (k : ℕ) (l2 : List ℕ)
    (hk : (decY k).1 < 0 ∨ (¬(decY k).1 < 0 ∧ (decX k).1 < 0)) :
    ∀ (l1 : List ℕ) (pv : ℚ),
    (∀ n ∈ l1, ¬(decY n).1 < 0 ∧ ¬(decX n).1 < 0) →
    (scan_phase_aux decY decX pv (l1 ++ k :: l2)).ret =
      (if (decY k).1 < 0 then (decY k).1 else (decX k).1) ∧
    (scan_phase_aux decY decX pv (l1 ++ k :: l2)).processed = l1 := by
  intro l1
  induction l1 with
  | nil =>
    intro pv _
    simp only [List.nil_append, scan_phase_aux]
    rcases hk with h | ⟨h1, h2⟩
    · rw [if_pos h, if_pos h]
      exact ⟨rfl, rfl⟩
    · rw [if_neg h1, if_pos h2, if_neg h1]
      exact ⟨rfl, rfl⟩
  | cons n rest ih =>
    intro pv h
    obtain ⟨hy, hx⟩ := h n (List.mem_cons_self n rest)
    simp only [List.cons_append, scan_phase_aux]
    rw [if_neg hy, if_neg hx]
    obtain ⟨h1, h2⟩ := ih _ (fun m hm => h m (List.mem_cons_of_mem n hm))
    exact ⟨h1, congrArg (List.cons n) h2⟩

/-- Claim C7: whenever a decompression oracle call returns a negative value
at some chunk k (all earlier chunks succeeding), the driver of the transform
phase, and likewise of the scan phase, returns that negative code immediately
and processes exactly the chunks before k, never skipping the failed chunk
and continuing. -/
theorem decompress_error_aborts_run :
    ∀ (decX decY : ℕ → ℤ × List ℚ) (pv : ℚ) (k : ℕ) (e : ℤ),
    k < NCHUNKS → e < 0 →
    ((∀ j, j < k → 0 ≤ (decX j).1) → (decX k).1 = e →
      (transform_phase decX).ret = e ∧
      (transform_phase decX).processed = List.range k) ∧
    ((∀ j, j < k → 0 ≤ (decY j).1 ∧ 0 ≤ (decX j).1) →
      ((decY k).1 = e ∨ (0 ≤ (decY k).1 ∧ (decX k).1 = e)) →
      (scan_phase decY decX pv).ret = e ∧
      (scan_phase decY decX pv).processed = List.range k) := by
  intro decX decY pv k e hk he
  constructor
  · intro hok hke
    rw [transform_phase, range_split NCHUNKS k hk]
    have h := transform_phase_aux_err decX k
      (List.range' (k + 1) (NCHUNKS - (k + 1))) (by omega)
      (List.range k) (List.replicate CHUNKSIZE 0)
      (fun n hn => by have := hok n (List.mem_range.mp hn); omega)
    rw [h.1, h.2, hke]
    exact ⟨rfl, rfl⟩
  · intro hok hke
    rw [scan_phase, range_split NCHUNKS k hk]
    have hk2 : (decY k).1 < 0 ∨ (¬(decY k).1 < 0 ∧ (decX k).1 < 0) := by
      rcases hke with h | ⟨h1, h2⟩
      · left; omega
      · right; exact ⟨by omega, by omega⟩
    have h := scan_phase_aux_err decY decX k
      (List.range' (k + 1) (NCHUNKS - (k + 1))) hk2 (List.range k) pv
      (fun n hn => by
        obtain ⟨a, b⟩ := hok n (List.mem_range.mp hn)
        exact ⟨by omega, by omega⟩)
    refine ⟨?_, h.2⟩
    rw [h.1]
    rcases hke with h3 | ⟨h3, h4⟩
    · rw [if_pos (by omega)]
      exact h3
    · rw [if_neg (by omega)]
      exact h4

/-- Witness for C7: with an oracle failing at chunk 0 with code -5, both
phases return -5 and process no chunk. -/
theorem decompress_error_aborts_run_witness :
    0 < NCHUNKS ∧ (-5 : ℤ) < 0 ∧
    ((transform_phase decBad).ret = -5 ∧
      (transform_phase decBad).processed = List.range 0) ∧
    ((scan_phase decBad decBad 0).ret = -5 ∧
      (scan_phase decBad decBad 0).processed = List.range 0) := by
  refine ⟨by norm_num [NCHUNKS], by norm_num, ?_, ?_⟩
  · exact (decompress_error_aborts_run decBad decBad 0 0 (-5)
      (by norm_num [NCHUNKS]) (by norm_num)).1
      (fun j hj => absurd hj (Nat.not_lt_zero j)) rfl
  · exact (decompress_error_aborts_run decBad decBad 0 0 (-5)
      (by norm_num [NCHUNKS]) (by norm_num)).2
      (fun j hj => absurd hj (Nat.not_lt_zero j)) (Or.inl rfl)
